import Mathlib

/-!
Shallow embedding of the core of the packrattle parser-combinator engine:
the match model from `matcher.ts` (`Span`, `mergeSpan`, `MatchSuccess`,
`MatchFailure`, `Schedule`, and the helpers `fail`, `success`, `schedule`,
`defer`, `mapMatch`), and the combinator matchers from `combiners.ts`
(`chain`, `alt` with `findBestFail`, `optionalOr`/`optional`, `check`,
`not`, `repeat`).

Matchers return a list of items, each either a terminal match or a request
to schedule a sub-parser with a continuation handler.  Parsers are
abstracted by an arbitrary type `P` (the claims under study are about the
local behaviour of each combinator's matcher and handlers, which never
inspects the child parser object itself), and all match values live in a
single type `V` (in the TypeScript source the value types vary per node;
instantiating them all at one type loses nothing for these claims).

The stateful parts (`alt`'s closure-mutable `count`/`fails`, `repeat`'s
mutually recursive `next`/`process` driven lazily by the trampoline) are
embedded by explicit state passing: `alt` becomes a step function on an
explicit `AltState`, and `repeat`'s `next`/`process` become step functions
whose `Schedule` item records the continuation's closure state
`(pos, count, accumulator)` instead of a closure.  The synchronous
`throw new Error(...)` in `repeat` is embedded as `Except.error`.
-/

namespace Packrattle

/-- `Span` from `matcher.ts`: a pair of positions. -/
structure Span where
  start : Nat
  «end» : Nat
deriving DecidableEq, Repr

/-- `mergeSpan` from `matcher.ts`, verbatim:
`(span1.start < span2.start || span1.end < span2.end) ? new Span(span1.start, span2.end) : new Span(span2.start, span1.end)`. -/
def mergeSpan (span1 span2 : Span) : Span :=
  if span1.start < span2.start ∨ span1.«end» < span2.«end» then
    ⟨span1.start, span2.«end»⟩
  else
    ⟨span2.start, span1.«end»⟩

/-- `MatchFailure` from `matcher.ts`: span and message.  The `priority`
field is modelled from the spec: failures carry a priority (0 by default; a
naming wrapper outside the files under study may raise it); the TypeScript
class reaches it through its optional `task` back-reference, whose class
lives outside the sources in scope, but `findBestFail` in `combiners.ts`
reads `f.priority` directly, so the field is part of the failure value. -/
structure MatchFailure where
  span : Span
  message : String
  priority : Nat
deriving DecidableEq, Repr

/-- `Match` from `matcher.ts`: `MatchSuccess | MatchFailure`. -/
inductive Match (V : Type) where
  | success : Span → V → Match V
  | failure : MatchFailure → Match V
deriving DecidableEq, Repr

/-- One entry of a `MatchResult` list from `matcher.ts`: either a terminal
`Match`, or a `Schedule` (sub-parser, index, continuation handler). -/
inductive Item (P V : Type) : Type where
  | term : Match V → Item P V
  | sched : P → Nat → (Match V → List (Item P V)) → Item P V

/-- A `MatchResult` is a list of matches and schedule requests. -/
abbrev MatchResult (P V : Type) := List (Item P V)

/-- `fail(index, parser)` from `matcher.ts`: a one-element list holding a
failure at `(index, index)` whose message is `"Expected " + description`
(priority 0, the default for a freshly built failure). -/
def fail (P V : Type) (index : Nat) (description : String) : MatchResult P V :=
  [.term (.failure ⟨⟨index, index⟩, "Expected " ++ description, 0⟩)]

/-- `success(start, end, value)` from `matcher.ts`. -/
def success (P : Type) {V : Type} (start «end» : Nat) (value : V) : MatchResult P V :=
  [.term (.success ⟨start, «end»⟩ value)]

/-- `schedule(parser, index, handler)` from `matcher.ts`. -/
def schedule {P V : Type} (parser : P) (index : Nat)
    (handler : Match V → MatchResult P V) : MatchResult P V :=
  [.sched parser index handler]

/-- `defer(parser, index)` from `matcher.ts`: schedule with the
identity-wrap handler `match => [ match ]`. -/
def defer {P V : Type} (parser : P) (index : Nat) : MatchResult P V :=
  [.sched parser index (fun m => [.term m])]

/-- `mapMatch` from `matcher.ts`: failures pass through unchanged,
successes are fed to `f`. -/
def mapMatch {P V : Type} (m : Match V)
    (f : Span → V → MatchResult P V) : MatchResult P V :=
  match m with
  | .failure flr => [.term (.failure flr)]
  | .success sp v => f sp v

/-- The covering span `(min start, max end)` as the spec's sentence about
`mergeSpan` describes it (stated from the spec's words, for comparison with
the source's `mergeSpan`). -/
def coveringSpan (span1 span2 : Span) : Span :=
  ⟨min span1.start span2.start, max span1.«end» span2.«end»⟩

/-- C1 counterexample: for s1 = (2, 3) and s2 = (0, 5), both valid
(start ≤ end), the source's `mergeSpan` returns (2, 5), not the covering
span (0, 5); so the claim as stated is false. -/
theorem mergeSpan_not_covering_at_2_3_0_5 :
    (2 : Nat) ≤ 3 ∧ (0 : Nat) ≤ 5 ∧
      mergeSpan ⟨2, 3⟩ ⟨0, 5⟩ ≠ coveringSpan ⟨2, 3⟩ ⟨0, 5⟩ := by
  refine ⟨by decide, by decide, ?_⟩
  decide

/-- C1 (amended): for valid spans that are componentwise comparable
(s1.start ≤ s2.start and s1.end ≤ s2.end, or the reverse — in particular
in the monotonic use where s1.end ≤ s2.start), `mergeSpan` returns the
covering span `(min(a, c), max(b, d))`. -/
theorem mergeSpan_covering_of_comparable (s1 s2 : Span)
    (h1 : s1.start ≤ s1.«end») (h2 : s2.start ≤ s2.«end»)
    (hc : (s1.start ≤ s2.start ∧ s1.«end» ≤ s2.«end») ∨
          (s2.start ≤ s1.start ∧ s2.«end» ≤ s1.«end»)) :
    mergeSpan s1 s2 = coveringSpan s1 s2 := by
  unfold mergeSpan coveringSpan
  rcases hc with ⟨ha, hb⟩ | ⟨ha, hb⟩ <;>
    [skip; skip] <;>
    · split <;> simp only [Span.mk.injEq] <;> omega

/-- C1 witness: the amended theorem applied at s1 = (1, 2), s2 = (2, 4),
the monotonic case. -/
theorem mergeSpan_covering_witness :
    (1 : Nat) ≤ 2 ∧ (2 : Nat) ≤ 4 ∧
      mergeSpan ⟨1, 2⟩ ⟨2, 4⟩ = coveringSpan ⟨1, 2⟩ ⟨2, 4⟩ :=
  ⟨by decide, by decide,
    mergeSpan_covering_of_comparable ⟨1, 2⟩ ⟨2, 4⟩ (by decide) (by decide)
      (Or.inl ⟨by decide, by decide⟩)⟩

/-- The matcher of `chain(p1, p2, combiner)` from `combiners.ts`: schedule
`p1` at `index`; on its success, schedule `p2` at `span1.end`; on both
successes, one success with span `mergeSpan(span1, span2)` and value
`combiner(value1, value2)`; failures pass through `mapMatch`. -/
def chain {P V : Type} (p1 p2 : P) (combiner : V → V → V) (index : Nat) :
    MatchResult P V :=
  schedule p1 index (fun match1 =>
    mapMatch match1 (fun span1 value1 =>
      schedule p2 span1.«end» (fun match2 =>
        mapMatch match2 (fun span2 value2 =>
          [.term (.success (mergeSpan span1 span2) (combiner value1 value2))]))))

/-- C2: `chain(p1, p2, combiner)` schedules `p1` at `index`; its handler
passes a failure of `p1` through unchanged, and on a success
`(span1, value1)` schedules `p2` at `span1.end`; that handler passes a
failure of `p2` through unchanged (so it is reported at `p2`'s failure
position, not at `index`), and on a success `(span2, value2)` emits exactly
one success with span `mergeSpan(span1, span2)` and value
`combiner(value1, value2)`. -/
theorem chain_schedules_and_merges {P V : Type} (p1 p2 : P)
    (combiner : V → V → V) (index : Nat) :
    ∃ h1, chain p1 p2 combiner index = [Item.sched p1 index h1] ∧
      (∀ flr, h1 (Match.failure flr) = [Item.term (Match.failure flr)]) ∧
      ∀ span1 value1, ∃ h2,
        h1 (Match.success span1 value1) = [Item.sched p2 span1.«end» h2] ∧
        (∀ flr, h2 (Match.failure flr) = [Item.term (Match.failure flr)]) ∧
        ∀ span2 value2,
          h2 (Match.success span2 value2) =
            [Item.term (Match.success (mergeSpan span1 span2)
              (combiner value1 value2))] :=
  ⟨_, rfl, fun _ => rfl, fun _ _ => ⟨_, rfl, fun _ => rfl, fun _ _ => rfl⟩⟩

/-- The matcher of `optionalOr(p, defaultValue)` from `combiners.ts`:
`defer(children[0], index).concat(success(index, index, defaultValue))`. -/
def optionalOr {P V : Type} (p : P) (defaultValue : V) (index : Nat) :
    MatchResult P V :=
  defer p index ++ success P index index defaultValue

/-- The matcher of `optional(p)` from `combiners.ts`:
`optionalOr(p, undefined)`, with `undefined` embedded as `Option.none`. -/
def optional {P V : Type} (p : P) (index : Nat) : MatchResult P (Option V) :=
  optionalOr p none index

/-- C6: the matcher of `optionalOr(p, d)` returns exactly two items: a
schedule of `p` at `index` whose handler passes `p`'s match through
unchanged (so a success of `p` ending at `e` stays a live success ending at
`e`), and an immediate success with span `(index, index)` and value `d`;
and `optional(p)` is `optionalOr` with the empty sentinel as default, so
both branches are produced as live parses. -/
theorem optionalOr_two_branches {P V : Type} (p : P) (defaultValue : V)
    (index : Nat) :
    (∃ h, optionalOr p defaultValue index =
        [Item.sched p index h,
         Item.term (Match.success ⟨index, index⟩ defaultValue)] ∧
      ∀ m, h m = [Item.term m]) ∧
    ∀ (W : Type) (q : P), optional (V := W) q index = optionalOr q none index :=
  ⟨⟨_, rfl, fun _ => rfl⟩, fun _ _ => rfl⟩

/-- The matcher of `check(p)` from `combiners.ts`: schedule `p` at `index`;
on success, `success(index, index, value)`; failures pass through. -/
def check {P V : Type} (p : P) (index : Nat) : MatchResult P V :=
  schedule p index (fun m =>
    mapMatch m (fun _span value => success P index index value))

/-- C7: the matcher of `check(p)` schedules `p` at `index`; its handler
propagates every failure of `p` unchanged, turns every success of `p` into
a success with span `(index, index)` carrying the same value, and emits a
success exactly when `p`'s match was a success — so `check(p)` succeeds iff
`p` succeeds, with zero-width spans. -/
theorem check_zero_width_iff {P V : Type} (p : P) (index : Nat) :
    ∃ h, check (V := V) p index = [Item.sched p index h] ∧
      (∀ flr, h (Match.failure flr) = [Item.term (Match.failure flr)]) ∧
      (∀ sp value,
        h (Match.success sp value) =
          [Item.term (Match.success ⟨index, index⟩ value)]) ∧
      ∀ m, (∃ sp v, Item.term (Match.success sp v) ∈ h m) ↔
        ∃ sp v, m = Match.success sp v := by
  refine ⟨_, rfl, fun _ => rfl, fun _ _ => rfl, fun m => ?_⟩
  cases m with
  | success sp v =>
    simp only [mapMatch, success, List.mem_singleton]
    exact ⟨fun _ => ⟨sp, v, rfl⟩, fun _ => ⟨⟨index, index⟩, v, rfl⟩⟩
  | failure flr =>
    simp [mapMatch]

/-- The matcher of `not(p)` from `combiners.ts`: schedule `p` at `index`;
on success of `p`, `fail(index, parser)`; on failure of `p`,
`success(index, index, null)` (with `null` embedded as `Option.none`). -/
def not {P V : Type} (p : P) (description : String) (index : Nat) :
    MatchResult P (Option V) :=
  schedule p index (fun m =>
    match m with
    | .success _ _ => fail P (Option V) index description
    | .failure _ => success P index index none)

/-- C8: the matcher of `not(p)` schedules `p` at `index`; its handler turns
every success of `p` into a failure at `(index, index)` with message
`"Expected " + description` (naming the `not` parser), turns every failure
of `p` into a success with span `(index, index)` and value null, and emits
a success exactly when `p`'s match was not a success — so exactly one of
`not(p)` and `p` succeeds at `index`. -/
theorem not_complement {P V : Type} (p : P) (description : String)
    (index : Nat) :
    ∃ h, Packrattle.not (V := V) p description index =
        [Item.sched p index h] ∧
      (∀ sp (value : Option V),
        h (Match.success sp value) =
          [Item.term (Match.failure
            ⟨⟨index, index⟩, "Expected " ++ description, 0⟩)]) ∧
      (∀ flr, h (Match.failure flr) =
        [Item.term (Match.success ⟨index, index⟩ (none : Option V))]) ∧
      ∀ m, (∃ sp v, Item.term (Match.success sp v) ∈ h m) ↔
        ¬ ∃ sp v, m = Match.success sp v := by
  refine ⟨_, rfl, fun _ _ => rfl, fun _ => rfl, fun m => ?_⟩
  cases m with
  | success sp v =>
    simp [fail]
  | failure flr =>
    simp [success]

/-- `RepeatOptions` from `combiners.ts`: optional `min` and `max`. -/
structure RepeatOptions where
  min : Option Nat := none
  max : Option Nat := none
deriving DecidableEq, Repr

/-- `const min = options.min || 0` from `repeat`: JavaScript `||` treats
both `undefined` and `0` as falsy, so a missing `min` and `min: 0` both
yield 0. -/
def repeatMin (options : RepeatOptions) : Nat :=
  match options.min with
  | none => 0
  | some 0 => 0
  | some m => m

/-- `const max = options.max || Infinity` from `repeat`: JavaScript `||`
treats both `undefined` and `0` as falsy, so a missing `max` and `max: 0`
both yield Infinity.  Infinity is embedded as `none`. -/
def repeatMax (options : RepeatOptions) : Option Nat :=
  match options.max with
  | none => none
  | some 0 => none
  | some m => some m

/-- `count < max` where `max` may be Infinity (`none`). -/
def countLtMax (count : Nat) (max : Option Nat) : Bool :=
  match max with
  | none => true
  | some m => count < m

/-- One entry of the `MatchResult` produced by `repeat`'s `next`/`process`.
The schedule request of the child parser is defunctionalized: in the
source its handler is the closure `match => process(match, count,
accumulator)` over the child scheduled at `pos`, so the item records the
closure state `(pos, count, accumulator)`. -/
inductive RepItem (V : Type) where
  | success : Span → List V → RepItem V
  | failure : Span → String → RepItem V
  | schedChild : Nat → Nat → List V → RepItem V
deriving DecidableEq, Repr

/-- `next(count, accumulator, pos)` inside `repeat`'s matcher from
`combiners.ts`: push a candidate success `(Span(index, pos), accumulator)`
when `count >= min`, and a schedule of the child at `pos` (with handler
`process(_, count, accumulator)`) when `count < max`. -/
def repeatNext {V : Type} (min : Nat) (max : Option Nat) (index : Nat)
    (count : Nat) (accumulator : List V) (pos : Nat) : List (RepItem V) :=
  (if min ≤ count then [RepItem.success ⟨index, pos⟩ accumulator] else []) ++
  (if countLtMax count max then [RepItem.schedChild pos count accumulator]
   else [])

/-- `process(match, count, accumulator)` inside `repeat`'s matcher from
`combiners.ts`.  On failure: a single failure spanning `(index,
match.span.start)` with message `"Expected " + parser.description` when
`count < min`, nothing otherwise.  On success: if the child's span is
zero-width, `throw new Error("Repeating parser isn't making progress at
position ...")` — embedded as `Except.error`; otherwise recurse into
`next(count + 1, accumulator.concat([value]), span.end)`. -/
def repeatProcess {V : Type} (description childDescription : String)
    (min : Nat) (max : Option Nat) (index : Nat) (m : Match V)
    (count : Nat) (accumulator : List V) :
    Except String (List (RepItem V)) :=
  match m with
  | .failure flr =>
    if count < min then
      .ok [RepItem.failure ⟨index, flr.span.start⟩
        ("Expected " ++ description)]
    else
      .ok []
  | .success sp value =>
    if sp.start = sp.«end» then
      .error ("Repeating parser isn\x27t making progress at position " ++
        toString sp.start ++ ": " ++ childDescription)
    else
      .ok (repeatNext min max index (count + 1) (accumulator ++ [value])
        sp.«end»)

/-- C4: when the child of `repeat` produces a success whose span is
zero-width (`span.start == span.end`), `process` raises a synchronous
error whose message begins "Repeating parser isn't making progress at
position" (an `Except.error`, aborting the parse), not a parse failure
match. -/
theorem repeat_zero_width_errors {V : Type}
    (description childDescription : String) (min : Nat) (max : Option Nat)
    (index count : Nat) (accumulator : List V) (sp : Span) (value : V)
    (h : sp.start = sp.«end») :
    ∃ rest,
      repeatProcess description childDescription min max index
          (Match.success sp value) count accumulator =
        Except.error
          ("Repeating parser isn\x27t making progress at position " ++ rest) := by
  refine ⟨toString sp.start ++ ": " ++ childDescription, ?_⟩
  simp only [repeatProcess, if_pos h, String.append_assoc]

/-- C4 witness: the zero-width child success (1, 1) makes `process` raise
the progress error. -/
theorem repeat_zero_width_errors_witness :
    ∃ rest,
      repeatProcess "r" "c" 0 none 0 (Match.success ⟨1, 1⟩ (0 : Nat)) 0 [] =
        Except.error
          ("Repeating parser isn\x27t making progress at position " ++ rest) :=
  repeat_zero_width_errors "r" "c" 0 none 0 0 [] ⟨1, 1⟩ 0 rfl

/-- C5: at accumulator state `(count, accumulator, pos)` of
`repeat(p, {min, max})` started at `index`, the candidate success with
span `(index, pos)` and value `accumulator` is emitted by `next` exactly
when `count ≥ min`; and on a child failure, `process` emits exactly one
failure with span `(index, failure.span.start)` and message
`"Expected " + description` when `count < min`, and emits nothing when
`count ≥ min`. -/
theorem repeat_candidate_iff_and_failure {V : Type}
    (description childDescription : String) (min : Nat) (max : Option Nat)
    (index count pos : Nat) (accumulator : List V) :
    ((RepItem.success ⟨index, pos⟩ accumulator ∈
        repeatNext min max index count accumulator pos) ↔ min ≤ count) ∧
    ∀ flr : MatchFailure,
      (count < min →
        repeatProcess description childDescription min max index
            (Match.failure flr) count accumulator =
          Except.ok [RepItem.failure ⟨index, flr.span.start⟩
            ("Expected " ++ description)]) ∧
      (min ≤ count →
        repeatProcess description childDescription min max index
            (Match.failure flr) count accumulator = Except.ok []) := by
  refine ⟨?_, fun flr => ⟨fun hlt => ?_, fun hge => ?_⟩⟩
  · unfold repeatNext
    by_cases hmin : min ≤ count
    · simp [hmin]
    · simp [hmin]
  · simp only [repeatProcess, if_pos hlt]
  · simp only [repeatProcess, if_neg (Nat.not_lt.mpr hge)]

/-- C5 witness: with min = 1, at count = 0 no candidate success is emitted
and a child failure at position 3 yields the single spanning failure; at
count = 1 the candidate is emitted and a child failure yields nothing. -/
theorem repeat_candidate_iff_and_failure_witness :
    (((RepItem.success ⟨0, 2⟩ [5] ∈
        repeatNext 1 none 0 1 ([5] : List Nat) 2) ↔ 1 ≤ 1) ∧
      ∀ flr : MatchFailure,
        (1 < 1 →
          repeatProcess "r" "c" 1 none 0 (Match.failure flr) 1 ([5] : List Nat) =
            Except.ok [RepItem.failure ⟨0, flr.span.start⟩ ("Expected " ++ "r")]) ∧
        (1 ≤ 1 →
          repeatProcess "r" "c" 1 none 0 (Match.failure flr) 1 ([5] : List Nat) =
            Except.ok [])) ∧
    repeatProcess "r" "c" 1 none 0
        (Match.failure ⟨⟨3, 3⟩, "m", 0⟩) 0 ([] : List Nat) =
      Except.ok [RepItem.failure ⟨0, 3⟩ ("Expected " ++ "r")] :=
  ⟨repeat_candidate_iff_and_failure "r" "c" 1 none 0 1 2 [5],
   ((repeat_candidate_iff_and_failure "r" "c" 1 none 0 0 2 []).2
     ⟨⟨3, 3⟩, "m", 0⟩).1 (by decide)⟩

/-- C9: passing `{max: 0}` to `repeat` computes the same bound as omitting
`max` entirely (`options.max || Infinity` treats 0 as falsy), so
`count < max` holds at every accumulator state and the child is always
scheduled again. -/
theorem repeat_max_zero_is_infinity {V : Type} (minOpt : Option Nat) :
    repeatMax ⟨minOpt, some 0⟩ = repeatMax ⟨minOpt, none⟩ ∧
    ∀ (min index count pos : Nat) (accumulator : List V),
      countLtMax count (repeatMax ⟨minOpt, some 0⟩) = true ∧
      RepItem.schedChild pos count accumulator ∈
        repeatNext min (repeatMax ⟨minOpt, some 0⟩) index count accumulator pos := by
  refine ⟨rfl, fun min index count pos accumulator => ⟨rfl, ?_⟩⟩
  unfold repeatNext
  by_cases hmin : min ≤ count <;> simp [hmin, repeatMax, countLtMax]

/-- The comparison used by `findBestFail` in `combiners.ts`: the candidate
`f` replaces the current `best` exactly when
`f.priority > best.priority || (f.priority == best.priority && f.span.start > best.span.start)`.
`ltFail best f` says `f` wins that comparison against `best`. -/
def ltFail (best f : MatchFailure) : Prop :=
  f.priority > best.priority ∨
    (f.priority = best.priority ∧ f.span.start > best.span.start)

instance (f g : MatchFailure) : Decidable (ltFail f g) := by
  unfold ltFail; infer_instance

/-- `g` is at least as good as `f` under the best-failure rule: higher
priority, or equal priority and at-least-as-late span start. -/
def leFail (f g : MatchFailure) : Prop :=
  ltFail f g ∨ (f.priority = g.priority ∧ f.span.start = g.span.start)

instance (f g : MatchFailure) : Decidable (leFail f g) := by
  unfold leFail ltFail; infer_instance

/-- The body of the `fails.forEach` loop in `findBestFail`. -/
def betterFail (best f : MatchFailure) : MatchFailure :=
  if ltFail best f then f else best

/-- The loop of `findBestFail` from `combiners.ts`: start from `fails[0]`
and fold the replacement comparison over the whole list. -/
def findBestFailBest (b : MatchFailure) (fails : List MatchFailure) :
    MatchFailure :=
  fails.foldl betterFail b

/-- `findBestFail(index, fails)` from `combiners.ts`: pick the best failure
by the loop above; if its `span.start` equals `index` and its priority is
0, replace it with `fail(index, parser)` (a fresh failure with message
`"Expected " + description`); otherwise return the best failure itself.
(It is only ever invoked with a non-empty `fails` list; on `[]` the
JavaScript would fault on `fails[0]`.) -/
def findBestFail (P V : Type) (index : Nat) (description : String)
    (fails : List MatchFailure) : MatchResult P V :=
  match fails with
  | [] => []
  | f0 :: rest =>
    let best := findBestFailBest f0 (f0 :: rest)
    if best.span.start = index ∧ best.priority = 0 then
      fail P V index description
    else
      [.term (.failure best)]

/-- The closure state of `alt`'s matcher in `combiners.ts`: the mutable
`count` and the collected `fails`, shared by all the children's handlers. -/
structure AltState where
  count : Nat
  fails : List MatchFailure
deriving DecidableEq, Repr

/-- One invocation of the handler `alt` attaches to each child's schedule
in `combiners.ts`, with the closure state made explicit: a success is
returned as-is; a failure is pushed onto `fails` and `count` is
incremented, and when `count == children.length && count == fails.length`
the summary `findBestFail(index, fails)` is emitted, otherwise nothing. -/
def altStep {P V : Type} (childCount index : Nat) (description : String)
    (st : AltState) (m : Match V) : AltState × MatchResult P V :=
  match m with
  | .success sp v => (st, [.term (.success sp v)])
  | .failure flr =>
    let fails := st.fails ++ [flr]
    let count := st.count + 1
    if count = childCount ∧ count = fails.length then
      (⟨count, fails⟩, findBestFail P V index description fails)
    else
      (⟨count, fails⟩, [])

/-- Fold a sequence of child reports through `altStep`, accumulating the
emitted match results. -/
def altRunFrom {P V : Type} (childCount index : Nat) (description : String)
    (st : AltState) (acc : MatchResult P V) (ms : List (Match V)) :
    AltState × MatchResult P V :=
  match ms with
  | [] => (st, acc)
  | m :: rest =>
    let step := altStep childCount index description st m
    altRunFrom childCount index description step.1 (acc ++ step.2) rest

/-- A full round of child reports for an `alt` activated at `index`,
starting from the fresh closure state `count = 0`, `fails = []`. -/
def altRun (P V : Type) (childCount index : Nat) (description : String)
    (ms : List (Match V)) : AltState × MatchResult P V :=
  altRunFrom childCount index description ⟨0, []⟩ [] ms

/-- The failures among a list of child reports, in report order (the order
they are pushed onto `fails`). -/
def failuresOf {V : Type} (ms : List (Match V)) : List MatchFailure :=
  ms.filterMap (fun m =>
    match m with
    | .failure flr => some flr
    | .success _ _ => none)

theorem ltFail_irrefl (f : MatchFailure) : ¬ ltFail f f := by
  unfold ltFail; omega

theorem leFail_refl (f : MatchFailure) : leFail f f := by
  unfold leFail ltFail; omega

theorem leFail_of_not_ltFail {f g : MatchFailure} (h : ¬ ltFail f g) :
    leFail g f := by
  unfold ltFail at h; unfold leFail ltFail; omega

theorem leFail_of_ltFail {f g : MatchFailure} (h : ltFail f g) :
    leFail f g := Or.inl h

theorem ltFail_trans {f g k : MatchFailure} (h1 : ltFail f g)
    (h2 : ltFail g k) : ltFail f k := by
  unfold ltFail at h1 h2 ⊢; omega

theorem ltFail_of_leFail_of_ltFail {f g k : MatchFailure} (h1 : leFail f g)
    (h2 : ltFail g k) : ltFail f k := by
  unfold leFail at h1
  unfold ltFail at h1 h2 ⊢
  omega

/-- Characterization of the `findBestFail` loop: folding the replacement
comparison from `b` over `l` yields either `b` itself (when nothing in `l`
beats `b`), or the element of `l` at the first index that attains the
maximum — every element is `leFail` it and every earlier element is
strictly beaten by it. -/
theorem foldl_betterFail_spec (l : List MatchFailure) (b : MatchFailure) :
    (List.foldl betterFail b l = b ∧ ∀ x ∈ l, ¬ ltFail b x) ∨
    (∃ i, ∃ hi : i < l.length,
      List.foldl betterFail b l = l.get ⟨i, hi⟩ ∧
      ltFail b (l.get ⟨i, hi⟩) ∧
      (∀ x ∈ l, leFail x (l.get ⟨i, hi⟩)) ∧
      ∀ j, ∀ hj : j < i,
        ltFail (l.get ⟨j, Nat.lt_trans hj hi⟩) (l.get ⟨i, hi⟩)) := by
  induction l generalizing b with
  | nil => exact Or.inl ⟨rfl, by simp⟩
  | cons f rest ih =>
    have hstep : List.foldl betterFail b (f :: rest) =
        List.foldl betterFail (betterFail b f) rest := rfl
    by_cases hbf : ltFail b f
    · have hbfeq : betterFail b f = f := if_pos hbf
      rcases ih f with ⟨heq, hall⟩ | ⟨i, hi, heq, hlt, hmax, hfirst⟩
      · refine Or.inr ⟨0, Nat.succ_pos _, ?_, hbf, ?_, ?_⟩
        · rw [hstep, hbfeq]; exact heq
        · intro x hx
          rcases List.mem_cons.mp hx with hx | hx
          · subst hx; exact leFail_refl x
          · exact leFail_of_not_ltFail (hall x hx)
        · intro j hj; omega
      · refine Or.inr ⟨i + 1, Nat.succ_lt_succ hi, ?_, ?_, ?_, ?_⟩
        · rw [hstep, hbfeq]; exact heq
        · exact ltFail_trans hbf hlt
        · intro x hx
          rcases List.mem_cons.mp hx with hx | hx
          · subst hx; exact leFail_of_ltFail hlt
          · exact hmax x hx
        · intro j hj
          match j, hj with
          | 0, _ => exact hlt
          | j' + 1, hj => exact hfirst j' (Nat.lt_of_succ_lt_succ hj)
    · have hbfeq : betterFail b f = b := if_neg hbf
      rcases ih b with ⟨heq, hall⟩ | ⟨i, hi, heq, hlt, hmax, hfirst⟩
      · refine Or.inl ⟨?_, ?_⟩
        · rw [hstep, hbfeq]; exact heq
        · intro x hx
          rcases List.mem_cons.mp hx with hx | hx
          · subst hx; exact hbf
          · exact hall x hx
      · have hfr : ltFail f (rest.get ⟨i, hi⟩) :=
          ltFail_of_leFail_of_ltFail (leFail_of_not_ltFail hbf) hlt
        refine Or.inr ⟨i + 1, Nat.succ_lt_succ hi, ?_, hlt, ?_, ?_⟩
        · rw [hstep, hbfeq]; exact heq
        · intro x hx
          rcases List.mem_cons.mp hx with hx | hx
          · subst hx; exact leFail_of_ltFail hfr
          · exact hmax x hx
        · intro j hj
          match j, hj with
          | 0, _ => exact hfr
          | j' + 1, hj => exact hfirst j' (Nat.lt_of_succ_lt_succ hj)

/-- The best failure chosen by `findBestFail`'s loop is one of the
collected failures and every collected failure is at most it (highest
priority, then latest span start). -/
theorem findBestFailBest_mem_max (f0 : MatchFailure)
    (rest : List MatchFailure) :
    findBestFailBest f0 (f0 :: rest) ∈ f0 :: rest ∧
      ∀ g ∈ f0 :: rest, leFail g (findBestFailBest f0 (f0 :: rest)) := by
  rcases foldl_betterFail_spec (f0 :: rest) f0 with ⟨heq, hall⟩ |
    ⟨i, hi, heq, _hlt, hmax, _⟩
  · refine ⟨?_, ?_⟩
    · rw [findBestFailBest, heq]; exact List.mem_cons_self f0 rest
    · intro g hg
      rw [findBestFailBest, heq]
      exact leFail_of_not_ltFail (hall g hg)
  · refine ⟨?_, ?_⟩
    · rw [findBestFailBest, heq]; exact List.get_mem _ _ _
    · intro g hg
      rw [findBestFailBest, heq]
      exact hmax g hg

theorem failuresOf_length_le {V : Type} (ms : List (Match V)) :
    (failuresOf ms).length ≤ ms.length :=
  List.length_filterMap_le _ _

theorem failuresOf_length_lt_of_success {V : Type} (ms : List (Match V))
    (h : ∃ m ∈ ms, ∃ sp v, m = Match.success sp v) :
    (failuresOf ms).length < ms.length := by
  induction ms with
  | nil => simp at h
  | cons m rest ih =>
    cases m with
    | success sp v =>
      have hfl : failuresOf (Match.success (V := V) sp v :: rest) =
          failuresOf rest := rfl
      rw [hfl, List.length_cons]
      exact Nat.lt_succ_of_le (failuresOf_length_le rest)
    | failure flr =>
      have h' : ∃ m ∈ rest, ∃ sp v, m = Match.success sp v := by
        rcases h with ⟨m', hm', hs⟩
        rcases List.mem_cons.mp hm' with rfl | hm'
        · rcases hs with ⟨sp, v, heq⟩
          simp at heq
        · exact ⟨m', hm', hs⟩
      have hfl : failuresOf (Match.failure (V := V) flr :: rest) =
          flr :: failuresOf rest := rfl
      rw [hfl, List.length_cons, List.length_cons]
      exact Nat.succ_lt_succ (ih h')

theorem failuresOf_length_of_all_fail {V : Type} (ms : List (Match V))
    (h : ∀ m ∈ ms, ∃ flr, m = Match.failure flr) :
    (failuresOf ms).length = ms.length := by
  induction ms with
  | nil => rfl
  | cons m rest ih =>
    obtain ⟨flr, rfl⟩ := h m (List.mem_cons_self m rest)
    have hfl : failuresOf (Match.failure (V := V) flr :: rest) =
        flr :: failuresOf rest := rfl
    rw [hfl, List.length_cons, List.length_cons,
      ih fun m hm => h m (List.mem_cons_of_mem _ hm)]

/-- Running `alt`'s handler over a round of reports that are all failures:
each report pushes its failure; only the last one reaches
`count == children.length`, and there the summary `findBestFail` over the
collected failures is emitted. -/
theorem altRunFrom_all_fail {P V : Type} (childCount index : Nat)
    (description : String) :
    ∀ (ms : List (Match V)) (st : AltState) (acc : MatchResult P V),
      (∀ m ∈ ms, ∃ flr, m = Match.failure flr) → ms ≠ [] →
      st.count = st.fails.length →
      st.count + ms.length = childCount →
      altRunFrom childCount index description st acc ms =
        (⟨childCount, st.fails ++ failuresOf ms⟩,
         acc ++ findBestFail P V index description
           (st.fails ++ failuresOf ms)) := by
  intro ms
  induction ms with
  | nil => intro st acc _ hne _ _; exact absurd rfl hne
  | cons m rest ih =>
    intro st acc hall hne hcf hcc
    obtain ⟨flr, rfl⟩ := hall m (List.mem_cons_self m rest)
    by_cases hrest : rest = []
    · subst hrest
      have hcond : st.count + 1 = childCount ∧
          st.count + 1 = (st.fails ++ [flr]).length := by
        simp only [List.length_append, List.length_singleton]
        simp only [List.length_cons, List.length_nil] at hcc
        omega
      simp only [altRunFrom, altStep]
      rw [if_pos hcond]
      simp only [altRunFrom]
      have hc1 : st.count + 1 = childCount := hcond.1
      have hfl : failuresOf [Match.failure (V := V) flr] = [flr] := rfl
      rw [hfl, hc1]
    · have hrlen : 0 < rest.length := List.length_pos.mpr hrest
      have hcond : ¬ (st.count + 1 = childCount ∧
          st.count + 1 = (st.fails ++ [flr]).length) := by
        intro h
        simp only [List.length_cons] at hcc
        omega
      simp only [altRunFrom, altStep]
      rw [if_neg hcond]
      rw [List.append_nil]
      have := ih ⟨st.count + 1, st.fails ++ [flr]⟩ acc
        (fun m hm => hall m (List.mem_cons_of_mem _ hm)) hrest
        (by
          show st.count + 1 = (st.fails ++ [flr]).length
          simp only [List.length_append, List.length_singleton]
          omega)
        (by
          show st.count + 1 + rest.length = childCount
          simp only [List.length_cons] at hcc
          omega)
      rw [this]
      have hfl : failuresOf (Match.failure (V := V) flr :: rest) =
          flr :: failuresOf rest := rfl
      rw [hfl, List.append_assoc]
      rfl

/-- Running `alt`'s handler over a round of reports in which fewer than
`childCount` failures occur: the counter never reaches `childCount`, so no
summary failure is emitted — everything in the output beyond the starting
accumulator is a passed-through success. -/
theorem altRunFrom_no_fail_of_missing {P V : Type} (childCount index : Nat)
    (description : String) :
    ∀ (ms : List (Match V)) (st : AltState) (acc : MatchResult P V),
      st.count = st.fails.length →
      st.count + (failuresOf ms).length < childCount →
      ∀ x ∈ (altRunFrom childCount index description st acc ms).2,
        x ∈ acc ∨ ∃ (sp : Span) (v : V), x = Item.term (Match.success sp v) := by
  intro ms
  induction ms with
  | nil => intro st acc _ _ x hx; exact Or.inl hx
  | cons m rest ih =>
    intro st acc hcf hlt x hx
    cases m with
    | success sp v =>
      simp only [altRunFrom, altStep] at hx
      have hlt' : st.count + (failuresOf rest).length < childCount := by
        have : failuresOf (Match.success (V := V) sp v :: rest) =
            failuresOf rest := rfl
        rw [this] at hlt
        exact hlt
      rcases ih st (acc ++ [Item.term (Match.success sp v)]) hcf hlt' x hx
        with hmem | hsucc
      · rcases List.mem_append.mp hmem with hmem | hmem
        · exact Or.inl hmem
        · rcases List.mem_singleton.mp hmem with rfl
          exact Or.inr ⟨sp, v, rfl⟩
      · exact Or.inr hsucc
    | failure flr =>
      have hflcons : failuresOf (Match.failure (V := V) flr :: rest) =
          flr :: failuresOf rest := rfl
      rw [hflcons, List.length_cons] at hlt
      have hcond : ¬ (st.count + 1 = childCount ∧
          st.count + 1 = (st.fails ++ [flr]).length) := by
        intro h
        omega
      simp only [altRunFrom, altStep] at hx
      rw [if_neg hcond, List.append_nil] at hx
      exact ih ⟨st.count + 1, st.fails ++ [flr]⟩ acc
        (by
          show st.count + 1 = (st.fails ++ [flr]).length
          simp only [List.length_append, List.length_singleton]
          omega)
        (by
          show st.count + 1 + (failuresOf rest).length < childCount
          omega) x hx

/-- C3: for an `alt` with `n` children activated at `index`, fed one
report per child: when some child succeeds, no failure is ever emitted by
`alt`; when all `n` children report failures, the run emits exactly one
summary failure — a collected failure `best` of maximal priority and,
among equal priorities, latest `span.start` — except that when that best
failure sits at `span.start = index` with priority 0, a fresh failure at
`index` with message `"Expected " + description` is emitted instead. -/
theorem alt_single_failure_iff_all_fail {P V : Type} (n index : Nat)
    (description : String) (ms : List (Match V)) (hlen : ms.length = n)
    (hn : 0 < n) :
    ((∃ m ∈ ms, ∃ sp v, m = Match.success sp v) →
      ∀ flr, Item.term (Match.failure flr) ∉
        (altRun P V n index description ms).2) ∧
    ((∀ m ∈ ms, ∃ flr, m = Match.failure flr) →
      ∃ best, best ∈ failuresOf ms ∧
        (∀ g ∈ failuresOf ms, leFail g best) ∧
        (altRun P V n index description ms).2 =
          (if best.span.start = index ∧ best.priority = 0 then
            fail P V index description
          else
            [Item.term (Match.failure best)])) := by
  constructor
  · intro hsucc flr hmem
    have hflt : (0 : Nat) + (failuresOf ms).length < n := by
      have := failuresOf_length_lt_of_success ms hsucc
      omega
    rcases altRunFrom_no_fail_of_missing n index description ms ⟨0, []⟩ []
      rfl hflt _ hmem with hmem' | ⟨sp, v, heq⟩
    · exact absurd hmem' (List.not_mem_nil _)
    · simp at heq
  · intro hall
    have hne : ms ≠ [] := by
      intro h
      rw [h] at hlen
      simp at hlen
      omega
    have hrun := altRunFrom_all_fail (P := P) n index description ms
      ⟨0, []⟩ [] hall hne rfl (by simpa using hlen)
    have hflen : (failuresOf ms).length = ms.length :=
      failuresOf_length_of_all_fail ms hall
    obtain ⟨f0, rest, hf⟩ : ∃ f0 rest, failuresOf ms = f0 :: rest := by
      cases hfm : failuresOf ms with
      | nil =>
        rw [hfm] at hflen
        simp at hflen
        rw [← hflen] at hlen
        omega
      | cons a b => exact ⟨a, b, rfl⟩
    refine ⟨findBestFailBest f0 (f0 :: rest), ?_, ?_, ?_⟩
    · rw [hf]; exact (findBestFailBest_mem_max f0 rest).1
    · rw [hf]; exact (findBestFailBest_mem_max f0 rest).2
    · show (altRunFrom n index description ⟨0, []⟩ [] ms).2 = _
      rw [hrun]
      simp only [List.nil_append]
      rw [hf]
      rfl

/-- C3 witness: two children at index 0 both failing (at positions 1 and
0, priority 0) produce the single summary failure: the collected failure
at position 1 wins and, since its start differs from the alt's index, it
is emitted as-is. -/
theorem alt_single_failure_iff_all_fail_witness :
    ([Match.failure (V := Nat) ⟨⟨1, 1⟩, "a", 0⟩,
      Match.failure ⟨⟨0, 0⟩, "b", 0⟩].length = 2) ∧ (0 < 2) ∧
    ((∃ m ∈ [Match.failure (V := Nat) ⟨⟨1, 1⟩, "a", 0⟩,
        Match.failure ⟨⟨0, 0⟩, "b", 0⟩], ∃ sp v, m = Match.success sp v) →
      ∀ flr, Item.term (Match.failure flr) ∉
        (altRun Nat Nat 2 0 "d"
          [Match.failure ⟨⟨1, 1⟩, "a", 0⟩,
           Match.failure ⟨⟨0, 0⟩, "b", 0⟩]).2) ∧
    ((∀ m ∈ [Match.failure (V := Nat) ⟨⟨1, 1⟩, "a", 0⟩,
        Match.failure ⟨⟨0, 0⟩, "b", 0⟩], ∃ flr, m = Match.failure flr) →
      ∃ best, best ∈ failuresOf [Match.failure (V := Nat) ⟨⟨1, 1⟩, "a", 0⟩,
          Match.failure ⟨⟨0, 0⟩, "b", 0⟩] ∧
        (∀ g ∈ failuresOf [Match.failure (V := Nat) ⟨⟨1, 1⟩, "a", 0⟩,
          Match.failure ⟨⟨0, 0⟩, "b", 0⟩], leFail g best) ∧
        (altRun Nat Nat 2 0 "d"
          [Match.failure ⟨⟨1, 1⟩, "a", 0⟩,
           Match.failure ⟨⟨0, 0⟩, "b", 0⟩]).2 =
          (if best.span.start = 0 ∧ best.priority = 0 then
            fail Nat Nat 0 "d"
          else
            [Item.term (Match.failure best)])) :=
  ⟨rfl, by decide,
    alt_single_failure_iff_all_fail 2 0 "d"
      [Match.failure ⟨⟨1, 1⟩, "a", 0⟩, Match.failure ⟨⟨0, 0⟩, "b", 0⟩]
      rfl (by decide)⟩

/-- C10: the failure chosen by `findBestFail`'s loop is the element at the
first index attaining the maximum of (priority, span.start) in
lexicographic order: every collected failure is at most it, and every
failure recorded earlier in the list is strictly below it — so among
failures tied at the maximal priority and span.start, the one recorded
first wins, because the loop replaces its candidate only on a strictly
better comparison. -/
theorem findBestFail_tie_to_earliest (f0 : MatchFailure)
    (rest : List MatchFailure) :
    ∃ i, ∃ hi : i < (f0 :: rest).length,
      findBestFailBest f0 (f0 :: rest) = (f0 :: rest).get ⟨i, hi⟩ ∧
      (∀ g ∈ f0 :: rest, leFail g ((f0 :: rest).get ⟨i, hi⟩)) ∧
      ∀ j, ∀ hj : j < i,
        ltFail ((f0 :: rest).get ⟨j, Nat.lt_trans hj hi⟩)
          ((f0 :: rest).get ⟨i, hi⟩) := by
  rcases foldl_betterFail_spec (f0 :: rest) f0 with ⟨heq, hall⟩ |
    ⟨i, hi, heq, _hlt, hmax, hfirst⟩
  · refine ⟨0, Nat.succ_pos _, heq, ?_, ?_⟩
    · intro g hg
      exact leFail_of_not_ltFail (hall g hg)
    · intro j hj
      omega
  · exact ⟨i, hi, heq, hmax, hfirst⟩

/-- C10 witness: two failures tied at priority 0 and span start 0 — the
loop keeps the one recorded first. -/
theorem findBestFail_tie_to_earliest_witness :
    ∃ i, ∃ hi : i <
        [MatchFailure.mk ⟨0, 0⟩ "a" 0, MatchFailure.mk ⟨0, 0⟩ "b" 0].length,
      findBestFailBest ⟨⟨0, 0⟩, "a", 0⟩
          [⟨⟨0, 0⟩, "a", 0⟩, ⟨⟨0, 0⟩, "b", 0⟩] =
        [MatchFailure.mk ⟨0, 0⟩ "a" 0,
          MatchFailure.mk ⟨0, 0⟩ "b" 0].get ⟨i, hi⟩ ∧
      (∀ g ∈ [MatchFailure.mk ⟨0, 0⟩ "a" 0, MatchFailure.mk ⟨0, 0⟩ "b" 0],
        leFail g ([MatchFailure.mk ⟨0, 0⟩ "a" 0,
          MatchFailure.mk ⟨0, 0⟩ "b" 0].get ⟨i, hi⟩)) ∧
      ∀ j, ∀ hj : j < i,
        ltFail ([MatchFailure.mk ⟨0, 0⟩ "a" 0,
            MatchFailure.mk ⟨0, 0⟩ "b" 0].get ⟨j, Nat.lt_trans hj hi⟩)
          ([MatchFailure.mk ⟨0, 0⟩ "a" 0,
            MatchFailure.mk ⟨0, 0⟩ "b" 0].get ⟨i, hi⟩) :=
  findBestFail_tie_to_earliest ⟨⟨0, 0⟩, "a", 0⟩ [⟨⟨0, 0⟩, "b", 0⟩]

end Packrattle
